import Mathlib

/-!
Verification of `coverage_ideogram.py` (IdeoCoverage): a shallow embedding of
its interval-merge / overlap / landmark-extraction / layout pipeline, and
proofs about the claims of its specification.

Conventions of the embedding:
* BED and cytoband files are lists of already-parsed records, in file order.
* Python dicts keyed by chromosome become functions `String → Option _` or
  `String → List _` (lookup built from an association list where the source
  builds a dict).
* The field `end` of a genomic record is named `stop` (`end` is reserved in
  Lean); all coordinates are 0-based half-open integers.
* Plot coordinates are rationals (`spacing = 1.0`, `chrom_width = 0.4`,
  `* 1.1` become exact rational arithmetic).
* The calls into the external `pybedtools`/`bedtools` library
  (`sort().merge()`, `intersect(-u)`) are not code of this repository; they
  are modelled from the spec per their documented semantics, and marked so.
-/

namespace IdeoCoverage

/-- A BED interval record `(chrom, start, end)`, 0-based half-open; the field
`end` is reserved in Lean and is named `stop`. -/
structure BedRecord where
  chrom : String
  start : Nat
  stop : Nat
deriving DecidableEq, Repr

/-- Lexicographic `(start, end)` comparison on intervals of one chromosome,
the order `bedtools sort` establishes within a chromosome. -/
def intervalLe (a b : Nat × Nat) : Bool :=
  decide (a.1 < b.1) || (a.1 == b.1 && decide (a.2 ≤ b.2))

/-- Modelled from the spec: the left-to-right scan of `bedtools merge` (the
external `.sort().merge()` call in `get_bed_coverage`). It keeps a current
open interval `(cs, ce)`; a next sorted interval `(s, e)` with `s ≤ ce`
(overlapping or book-ended) extends it to `(cs, max ce e)`, otherwise
`(cs, ce)` is emitted and `(s, e)` opens. -/
def mergeScan : List (Nat × Nat) → Nat × Nat → List (Nat × Nat)
  | [], cur => [cur]
  | (s, e) :: rest, (cs, ce) =>
    if s ≤ ce then mergeScan rest (cs, max ce e)
    else (cs, ce) :: mergeScan rest (s, e)

/-- Insert an interval into a `(start, end)`-sorted interval list, keeping it
sorted. -/
def insertSorted (a : Nat × Nat) : List (Nat × Nat) → List (Nat × Nat)
  | [] => [a]
  | b :: l => if intervalLe a b then a :: b :: l else b :: insertSorted a l

/-- Modelled from the spec: `bedtools sort` restricted to one chromosome's
intervals, ordering them by `(start, end)`; since `intervalLe` is an
antisymmetric total order, any correct sort produces this list. -/
def sortIntervals : List (Nat × Nat) → List (Nat × Nat)
  | [] => []
  | a :: l => insertSorted a (sortIntervals l)

/-- Modelled from the spec: sorting and merging one chromosome's interval
list, the per-chromosome semantics of the external `pybedtools`
`sort().merge()` pipeline used by `get_bed_coverage`. -/
def mergeChrom (l : List (Nat × Nat)) : List (Nat × Nat) :=
  match sortIntervals l with
  | [] => []
  | x :: rest => mergeScan rest x

/-- `get_bed_coverage`: sort and merge the BED records (external
`pybedtools` pipeline, modelled from the spec), then group the merged
intervals by chromosome; the resulting mapping sends each chromosome to its
merged interval list in position order. -/
def get_bed_coverage (records : List BedRecord) (chrom : String) : List (Nat × Nat) :=
  mergeChrom ((records.filter (fun r => r.chrom == chrom)).map (fun r => (r.start, r.stop)))

/-- Modelled from the spec: `check_overlap` builds a one-record BED from the
query region and asks the external `bedtools intersect -u` whether any record
of `bedtool` overlaps it; under half-open semantics two records overlap when
they share at least one base: same chromosome, `query.start < r.stop` and
`r.start < query.end`. -/
def check_overlap (bedtool : List BedRecord) (region : String × Nat × Nat) : Bool :=
  bedtool.any (fun r =>
    r.chrom == region.1 && decide (region.2.1 < r.stop) && decide (r.start < region.2.2))

/-- A row of the cytoband table, in the column order of the source
(`chr, start, end, name, gieStain`); `end` is named `stop`. -/
structure CytobandRecord where
  chrom : String
  start : Nat
  stop : Nat
  name : String
  gieStain : String
deriving DecidableEq, Repr

/-- The `acen`-stained rows of one chromosome: the selection
`df[df["gieStain"] == "acen"]` restricted to `chrom` (boolean-mask selection
preserves row order). -/
def acenOf (df : List CytobandRecord) (chrom : String) : List CytobandRecord :=
  df.filter (fun r => r.gieStain == "acen" && r.chrom == chrom)

/-- Centromere part of `get_cytoband_info`: for a chromosome with at least
one `acen` row, `(min of starts, max of ends)` over those rows; for a
chromosome without one, no entry. -/
def centromere_positions (df : List CytobandRecord) (chrom : String) : Option (Nat × Nat) :=
  match acenOf df chrom with
  | [] => none
  | r :: rs =>
    some ((rs.map (fun x => x.start)).foldl min r.start,
          (rs.map (fun x => x.stop)).foldl max r.stop)

/-- The cytoband rows of one chromosome in table order: the selection
`df[df["chr"] == chrom]`, which preserves row order. -/
def rowsOf (df : List CytobandRecord) (chrom : String) : List CytobandRecord :=
  df.filter (fun r => r.chrom == chrom)

/-- Telomere part of `get_cytoband_info`: the `(start, end)` intervals of the
first (`iloc[0]`) and last (`iloc[-1]`) row of the chromosome in table
order. -/
def telomere_positions (df : List CytobandRecord) (chrom : String) :
    Option ((Nat × Nat) × (Nat × Nat)) :=
  match rowsOf df chrom with
  | [] => none
  | r :: rs =>
    let last := (r :: rs).getLast (List.cons_ne_nil r rs)
    some ((r.start, r.stop), (last.start, last.stop))

/-- An abstract draw primitive: a filled rectangle (`ax.add_patch(Rectangle
((x, y), w, h, color))`) or a text label (`ax.text(x, y, text)`). -/
inductive Prim where
  | rect (x y w h : ℚ) (color : String)
  | label (x y : ℚ) (text : String)
deriving DecidableEq, Repr

/-- The canonical display list: `chr1 .. chr22, chrX, chrY`. -/
def chromosomes : List String :=
  (List.range 22).map (fun i => "chr" ++ toString (i + 1)) ++ ["chrX", "chrY"]

/-- Width of a chromosome bar (`chrom_width = 0.4`). -/
def chrom_width : ℚ := 2 / 5

/-- Horizontal distance between chromosome slots (`spacing = 1.0`). -/
def spacing : ℚ := 1

/-- Dictionary lookup in the chromosome-length mapping. -/
def lengthOf (chrom_lengths : List (String × Nat)) (chrom : String) : Option Nat :=
  (chrom_lengths.find? (fun p => p.1 == chrom)).map (fun p => p.2)

/-- The draw primitives one displayed chromosome contributes in
`plot_ideogram`, at canonical index `idx` with length `chr_len`: body
rectangle, one navy rectangle per merged covered interval, the centromere
rectangle (red when covered, light red otherwise) when a centromere is known,
the two telomere rectangles (green when covered, light green otherwise) when
telomeres are known, and the chromosome label at `chr_len + 1e7`. -/
def chromPrims (bedtool : List BedRecord) (bed_coverage_dict : String → List (Nat × Nat))
    (centromeres : String → Option (Nat × Nat))
    (telomeres : String → Option ((Nat × Nat) × (Nat × Nat)))
    (idx : Nat) (chrom : String) (chr_len : Nat) : List Prim :=
  let x : ℚ := idx * spacing
  [Prim.rect x 0 chrom_width chr_len "lightgray"]
  ++ (bed_coverage_dict chrom).map
      (fun p => Prim.rect x p.1 chrom_width ((p.2 : ℚ) - p.1) "navy")
  ++ (match centromeres chrom with
      | none => []
      | some (cstart, cend) =>
        [Prim.rect x cstart chrom_width ((cend : ℚ) - cstart)
          (if check_overlap bedtool (chrom, cstart, cend) then "red" else "#ffcccc")])
  ++ (match telomeres chrom with
      | none => []
      | some ((tss, tse), (tes, tee)) =>
        [Prim.rect x tss chrom_width ((tse : ℚ) - tss)
           (if check_overlap bedtool (chrom, tss, tse) then "green" else "#ccffcc"),
         Prim.rect x tes chrom_width ((tee : ℚ) - tes)
           (if check_overlap bedtool (chrom, tes, tee) then "green" else "#ccffcc")])
  ++ [Prim.label (x + chrom_width / 2) ((chr_len : ℚ) + 10000000) chrom]

/-- One iteration of the chromosome loop of `plot_ideogram`: a chromosome
absent from `chrom_lengths` contributes nothing (`continue`); a present one
contributes its primitives at the slot of its canonical index `idx`. -/
def chromLayer (bedtool : List BedRecord) (bed_coverage_dict : String → List (Nat × Nat))
    (centromeres : String → Option (Nat × Nat))
    (telomeres : String → Option ((Nat × Nat) × (Nat × Nat)))
    (chrom_lengths : List (String × Nat)) (idx : Nat) (chrom : String) : List Prim :=
  match lengthOf chrom_lengths chrom with
  | none => []
  | some chr_len => chromPrims bedtool bed_coverage_dict centromeres telomeres idx chrom chr_len

/-- `max(chrom_lengths.values())`: greatest length over all entries of the
mapping. Only used when the mapping is non-empty; on an empty mapping the
source's `max` raises instead. -/
def maxVal (chrom_lengths : List (String × Nat)) : Nat :=
  (chrom_lengths.map (fun p => p.2)).foldr max 0

/-- What a completed `plot_ideogram` run did to the figure: its primitives,
the axis limits, the y-axis inversion, and that `savefig` wrote the file. -/
structure PlotResult where
  prims : List Prim
  ylim : ℚ × ℚ
  xlim : ℚ × ℚ
  yInverted : Bool
  saved : Bool
deriving DecidableEq, Repr

/-- `plot_ideogram`: iterate the canonical chromosome list collecting draw
primitives, then set `ylim = (0, max(lengths) * 1.1)`,
`xlim = (-0.5, 24)`, invert the y-axis and save. On an empty
`chrom_lengths`, the `max` over its values raises a `ValueError` after the
loop, so no output file is written. -/
def plot_ideogram (chrom_lengths : List (String × Nat))
    (bed_coverage_dict : String → List (Nat × Nat)) (bedtool : List BedRecord)
    (centromeres : String → Option (Nat × Nat))
    (telomeres : String → Option ((Nat × Nat) × (Nat × Nat))) :
    Except String PlotResult :=
  let prims := (chromosomes.enum.map
    (fun p => chromLayer bedtool bed_coverage_dict centromeres telomeres chrom_lengths p.1 p.2)).flatten
  if chrom_lengths.isEmpty then
    Except.error "max() arg is an empty sequence"
  else
    Except.ok
      { prims := prims
        ylim := (0, (maxVal chrom_lengths : ℚ) * 11 / 10)
        xlim := (-(1 / 2 : ℚ), 24)
        yInverted := true
        saved := true }

/-- The fill color of a rectangle primitive. -/
def primColor : Prim → Option String
  | Prim.rect _ _ _ _ c => some c
  | Prim.label _ _ _ => none

/-- The x position of a primitive. -/
def primX : Prim → ℚ
  | Prim.rect x _ _ _ _ => x
  | Prim.label x _ _ => x

/-- The y positions of the text labels among a primitive list. -/
def labelYs (l : List Prim) : List ℚ :=
  l.filterMap (fun p => match p with | Prim.label _ y _ => some y | _ => none)

/-- Whether a run completed (no Python exception escaped). -/
def ranOk : Except String PlotResult → Bool
  | Except.ok _ => true
  | Except.error _ => false

/-- The y-axis limits of a completed run. -/
def ylimOf : Except String PlotResult → Option (ℚ × ℚ)
  | Except.ok r => some r.ylim
  | Except.error _ => none

/-- The end-to-end scenario of the spec: two overlapping records on chr1. -/
def exRecords : List BedRecord := [⟨"chr1", 100, 200⟩, ⟨"chr1", 150, 300⟩]

/-- The spec's cytoband table for chr1, with a split (two-row) centromere. -/
def exCyto : List CytobandRecord :=
  [⟨"chr1", 0, 50, "p11", "gneg"⟩,
   ⟨"chr1", 300, 400, "p10", "acen"⟩,
   ⟨"chr1", 400, 450, "q10", "acen"⟩,
   ⟨"chr1", 950, 1000, "q11", "gneg"⟩]

/-- A chromosome with a single cytoband row. -/
def exCytoSingle : List CytobandRecord := [⟨"chr9", 10, 20, "p", "gneg"⟩]

/-! ### Lemmas about the merging scan -/

/-- The scan emits a non-empty list whose head opens at `cs` and closes no
earlier than `ce`. -/
theorem mergeScan_head (rest : List (Nat × Nat)) (cs ce : Nat) :
    ∃ ce' tail, mergeScan rest (cs, ce) = (cs, ce') :: tail ∧ ce ≤ ce' := by
  induction rest generalizing cs ce with
  | nil => exact ⟨ce, [], rfl, Nat.le_refl ce⟩
  | cons p rest ih =>
    obtain ⟨s, e⟩ := p
    by_cases h : s ≤ ce
    · obtain ⟨ce', tail, heq, hle⟩ := ih cs (max ce e)
      exact ⟨ce', tail, by simp [mergeScan, h, heq],
        Nat.le_trans (Nat.le_max_left _ _) hle⟩
    · obtain ⟨ce', tail, heq, _⟩ := ih s e
      exact ⟨ce, (s, ce') :: tail, by simp [mergeScan, h, heq], Nat.le_refl ce⟩

/-- Consecutive intervals produced by the scan are separated by a gap:
the earlier one ends strictly before the later one starts. -/
theorem mergeScan_chain (rest : List (Nat × Nat)) (cs ce : Nat) :
    List.Chain' (fun a b => a.2 < b.1) (mergeScan rest (cs, ce)) := by
  induction rest generalizing cs ce with
  | nil => simp [mergeScan]
  | cons p rest ih =>
    obtain ⟨s, e⟩ := p
    by_cases h : s ≤ ce
    · simpa [mergeScan, h] using ih cs (max ce e)
    · have hch := ih s e
      obtain ⟨ce', tail, heq, _⟩ := mergeScan_head rest s e
      rw [heq] at hch
      simp only [mergeScan, if_neg h, heq]
      exact List.chain'_cons.mpr ⟨by omega, hch⟩

/-- The scan preserves well-formedness: if the open interval and all pending
intervals have positive width, so does every emitted interval. -/
theorem mergeScan_wf (rest : List (Nat × Nat)) (cs ce : Nat)
    (hacc : cs < ce) (hrest : ∀ p ∈ rest, p.1 < p.2) :
    ∀ q ∈ mergeScan rest (cs, ce), q.1 < q.2 := by
  induction rest generalizing cs ce with
  | nil => simpa [mergeScan] using hacc
  | cons p rest ih =>
    obtain ⟨s, e⟩ := p
    have hse : s < e := hrest (s, e) (List.mem_cons_self _ _)
    have hrest' : ∀ p ∈ rest, p.1 < p.2 := fun p hp => hrest p (List.mem_cons_of_mem _ hp)
    by_cases h : s ≤ ce
    · have : cs < max ce e := Nat.lt_of_lt_of_le hacc (Nat.le_max_left _ _)
      simpa [mergeScan, h] using ih cs (max ce e) this hrest'
    · intro q hq
      simp only [mergeScan, if_neg h, List.mem_cons] at hq
      rcases hq with rfl | hq
      · exact hacc
      · exact ih s e hse hrest' q hq

/-- Every pending interval of a start-sorted scan input ends up inside one of
the emitted intervals. -/
theorem mergeScan_subset (rest : List (Nat × Nat)) (cs ce : Nat)
    (hsorted : List.Pairwise (fun a b : Nat × Nat => a.1 ≤ b.1) rest)
    (hcs : ∀ p ∈ rest, cs ≤ p.1) :
    ∀ p ∈ rest, ∃ q ∈ mergeScan rest (cs, ce), q.1 ≤ p.1 ∧ p.2 ≤ q.2 := by
  induction rest generalizing cs ce with
  | nil => simp
  | cons hd rest ih =>
    obtain ⟨s, e⟩ := hd
    intro p hp
    by_cases h : s ≤ ce
    · rcases List.mem_cons.mp hp with rfl | hp'
      · obtain ⟨ce', tail, heq, hle⟩ := mergeScan_head rest cs (max ce e)
        refine ⟨(cs, ce'), ?_, hcs (s, e) (List.mem_cons_self _ _), ?_⟩
        · simp [mergeScan, h, heq]
        · exact Nat.le_trans (Nat.le_max_right ce e) hle
      · have hcs' : ∀ p ∈ rest, cs ≤ p.1 :=
          fun p hp => hcs p (List.mem_cons_of_mem _ hp)
        have := ih cs (max ce e) hsorted.tail hcs' p hp'
        simpa [mergeScan, h] using this
    · rcases List.mem_cons.mp hp with rfl | hp'
      · obtain ⟨ce', tail, heq, hle⟩ := mergeScan_head rest s e
        refine ⟨(s, ce'), ?_, Nat.le_refl _, hle⟩
        simp [mergeScan, h, heq]
      · have hs : ∀ p ∈ rest, s ≤ p.1 :=
          fun p hp => (List.pairwise_cons.mp hsorted).1 p hp
        obtain ⟨q, hq, hq1, hq2⟩ := ih s e hsorted.tail hs p hp'
        exact ⟨q, by simp [mergeScan, h, hq], hq1, hq2⟩

/-- A gap-chained list of well-formed intervals is pairwise gapped. -/
theorem chain_gap_pairwise {l : List (Nat × Nat)}
    (hc : List.Chain' (fun a b : Nat × Nat => a.2 < b.1) l)
    (hwf : ∀ q ∈ l, q.1 ≤ q.2) :
    List.Pairwise (fun a b : Nat × Nat => a.2 < b.1) l := by
  induction l with
  | nil => simp
  | cons a l ih =>
    have hp := ih hc.tail (fun q hq => hwf q (List.mem_cons_of_mem _ hq))
    refine List.pairwise_cons.mpr ⟨?_, hp⟩
    intro b hb
    cases l with
    | nil => simp at hb
    | cons c l' =>
      have hac : a.2 < c.1 := (List.chain'_cons.mp hc).1
      rcases List.mem_cons.mp hb with rfl | hb'
      · exact hac
      · have hcb : c.2 < b.1 := (List.pairwise_cons.mp hp).1 b hb'
        have hcwf : c.1 ≤ c.2 := hwf c (List.mem_cons_of_mem _ (List.mem_cons_self _ _))
        omega

/-- Members of a pairwise list are equal or related one way or the other. -/
theorem pairwise_mem_cases {α : Type _} {R : α → α → Prop} {l : List α}
    (hl : List.Pairwise R l) {a b : α} (ha : a ∈ l) (hb : b ∈ l) :
    a = b ∨ R a b ∨ R b a := by
  induction hl with
  | nil => simp at ha
  | cons h _ ih =>
    rcases List.mem_cons.mp ha with rfl | ha' <;> rcases List.mem_cons.mp hb with rfl | hb'
    · exact Or.inl rfl
    · exact Or.inr (Or.inl (h b hb'))
    · exact Or.inr (Or.inr (h a ha'))
    · exact ih ha' hb'

/-- `intervalLe` is transitive. -/
theorem intervalLe_trans {a b c : Nat × Nat}
    (hab : intervalLe a b = true) (hbc : intervalLe b c = true) :
    intervalLe a c = true := by
  simp only [intervalLe, Bool.or_eq_true, Bool.and_eq_true, decide_eq_true_eq,
    beq_iff_eq] at hab hbc ⊢
  omega

/-- `intervalLe` is total. -/
theorem intervalLe_total (a b : Nat × Nat) :
    intervalLe a b = true ∨ intervalLe b a = true := by
  simp only [intervalLe, Bool.or_eq_true, Bool.and_eq_true, decide_eq_true_eq,
    beq_iff_eq]
  omega

/-- Membership in an insertion step. -/
theorem mem_insertSorted (a b : Nat × Nat) (l : List (Nat × Nat)) :
    b ∈ insertSorted a l ↔ b = a ∨ b ∈ l := by
  induction l with
  | nil => simp [insertSorted]
  | cons c l ih =>
    by_cases h : intervalLe a c
    · simp [insertSorted, h]
    · simp only [insertSorted, if_neg h, List.mem_cons, ih]
      tauto

/-- Sorting preserves membership. -/
theorem mem_sortIntervals (p : Nat × Nat) (l : List (Nat × Nat)) :
    p ∈ sortIntervals l ↔ p ∈ l := by
  induction l with
  | nil => simp [sortIntervals]
  | cons a l ih => simp [sortIntervals, mem_insertSorted, ih]

/-- Inserting into a sorted list keeps it sorted. -/
theorem pairwise_insertSorted (a : Nat × Nat) (l : List (Nat × Nat))
    (h : List.Pairwise (fun x y => intervalLe x y = true) l) :
    List.Pairwise (fun x y => intervalLe x y = true) (insertSorted a l) := by
  induction l with
  | nil => simp [insertSorted]
  | cons b l ih =>
    by_cases hab : intervalLe a b
    · simp only [insertSorted, if_pos hab]
      refine List.pairwise_cons.mpr ⟨?_, h⟩
      intro c hc
      rcases List.mem_cons.mp hc with rfl | hc'
      · exact hab
      · exact intervalLe_trans hab ((List.pairwise_cons.mp h).1 c hc')
    · simp only [insertSorted, if_neg hab]
      have hba : intervalLe b a = true := (intervalLe_total a b).resolve_left hab
      refine List.pairwise_cons.mpr ⟨?_, ih (List.pairwise_cons.mp h).2⟩
      intro c hc
      rcases (mem_insertSorted a c l).mp hc with rfl | hc'
      · exact hba
      · exact (List.pairwise_cons.mp h).1 c hc'

/-- The sorted interval list is sorted with respect to `intervalLe`. -/
theorem sortIntervals_pairwise (l : List (Nat × Nat)) :
    List.Pairwise (fun x y => intervalLe x y = true) (sortIntervals l) := by
  induction l with
  | nil => simp [sortIntervals]
  | cons a l ih => exact pairwise_insertSorted a _ ih

/-- The sort used by the merge orders intervals by ascending start. -/
theorem sortIntervals_pairwise_start (l : List (Nat × Nat)) :
    List.Pairwise (fun a b : Nat × Nat => a.1 ≤ b.1) (sortIntervals l) := by
  refine (sortIntervals_pairwise l).imp ?_
  intro a b hab
  simp only [intervalLe, Bool.or_eq_true, Bool.and_eq_true, decide_eq_true_eq,
    beq_iff_eq] at hab
  omega

/-- Per-chromosome merged output is gap-chained. -/
theorem mergeChrom_chain (l : List (Nat × Nat)) :
    List.Chain' (fun a b : Nat × Nat => a.2 < b.1) (mergeChrom l) := by
  unfold mergeChrom
  cases h : sortIntervals l with
  | nil => simp
  | cons x rest =>
    obtain ⟨cs, ce⟩ := x
    exact mergeScan_chain rest cs ce

/-- Per-chromosome merged output of valid intervals consists of valid
intervals. -/
theorem mergeChrom_wf (l : List (Nat × Nat)) (hv : ∀ p ∈ l, p.1 < p.2) :
    ∀ q ∈ mergeChrom l, q.1 < q.2 := by
  unfold mergeChrom
  cases h : sortIntervals l with
  | nil => simp
  | cons x rest =>
    obtain ⟨cs, ce⟩ := x
    have hmem : ∀ p ∈ (cs, ce) :: rest, p.1 < p.2 := by
      intro p hp
      exact hv p ((mem_sortIntervals p l).mp (h ▸ hp))
    exact mergeScan_wf rest cs ce (hmem (cs, ce) (List.mem_cons_self _ _))
      (fun p hp => hmem p (List.mem_cons_of_mem _ hp))

/-- Every input interval is contained in some interval of the merged
output. -/
theorem mergeChrom_subset (l : List (Nat × Nat)) :
    ∀ p ∈ l, ∃ q ∈ mergeChrom l, q.1 ≤ p.1 ∧ p.2 ≤ q.2 := by
  intro p hp
  have hps := sortIntervals_pairwise_start l
  have hpmem : p ∈ sortIntervals l := (mem_sortIntervals p l).mpr hp
  unfold mergeChrom
  cases h : sortIntervals l with
  | nil => rw [h] at hpmem; simp at hpmem
  | cons x rest =>
    obtain ⟨cs, ce⟩ := x
    rw [h] at hpmem hps
    rcases List.mem_cons.mp hpmem with rfl | hp'
    · obtain ⟨ce', tail, heq, hle⟩ := mergeScan_head rest cs ce
      exact ⟨(cs, ce'), by simp [heq], Nat.le_refl _, hle⟩
    · exact mergeScan_subset rest cs ce hps.tail
        (fun q hq => (List.pairwise_cons.mp hps).1 q hq) p hp'

/-! ### Fold lemmas for the centromere bounds -/

/-- A `min`-fold is a lower bound of the seed and all elements. -/
theorem foldl_min_le (l : List Nat) (a : Nat) : ∀ x ∈ a :: l, l.foldl min a ≤ x := by
  induction l generalizing a with
  | nil =>
    intro x hx
    rcases List.mem_cons.mp hx with rfl | hx
    · exact Nat.le_refl _
    · simp at hx
  | cons b l ih =>
    intro x hx
    have hseed : List.foldl min (min a b) l ≤ min a b :=
      ih (min a b) _ (List.mem_cons_self _ _)
    rcases List.mem_cons.mp hx with rfl | hx
    · exact Nat.le_trans hseed (Nat.min_le_left _ _)
    · rcases List.mem_cons.mp hx with rfl | hx
      · exact Nat.le_trans hseed (Nat.min_le_right _ _)
      · exact ih (min a b) x (List.mem_cons_of_mem _ hx)

/-- A `min`-fold is attained by the seed or by an element. -/
theorem foldl_min_mem (l : List Nat) (a : Nat) : l.foldl min a ∈ a :: l := by
  induction l generalizing a with
  | nil => simp
  | cons b l ih =>
    have := ih (min a b)
    rcases List.mem_cons.mp this with heq | hmem
    · rcases Nat.le_total a b with h | h
      · rw [List.foldl_cons, heq, Nat.min_eq_left h]
        exact List.mem_cons_self _ _
      · rw [List.foldl_cons, heq, Nat.min_eq_right h]
        exact List.mem_cons_of_mem _ (List.mem_cons_self _ _)
    · rw [List.foldl_cons]
      exact List.mem_cons_of_mem _ (List.mem_cons_of_mem _ hmem)

/-- A `max`-fold is an upper bound of the seed and all elements. -/
theorem le_foldl_max (l : List Nat) (a : Nat) : ∀ x ∈ a :: l, x ≤ l.foldl max a := by
  induction l generalizing a with
  | nil =>
    intro x hx
    rcases List.mem_cons.mp hx with rfl | hx
    · exact Nat.le_refl _
    · simp at hx
  | cons b l ih =>
    intro x hx
    have hseed : max a b ≤ List.foldl max (max a b) l :=
      ih (max a b) _ (List.mem_cons_self _ _)
    rcases List.mem_cons.mp hx with rfl | hx
    · exact Nat.le_trans (Nat.le_max_left _ _) hseed
    · rcases List.mem_cons.mp hx with rfl | hx
      · exact Nat.le_trans (Nat.le_max_right _ _) hseed
      · exact ih (max a b) x (List.mem_cons_of_mem _ hx)

/-- A `max`-fold is attained by the seed or by an element. -/
theorem foldl_max_mem (l : List Nat) (a : Nat) : l.foldl max a ∈ a :: l := by
  induction l generalizing a with
  | nil => simp
  | cons b l ih =>
    have := ih (max a b)
    rcases List.mem_cons.mp this with heq | hmem
    · rcases Nat.le_total a b with h | h
      · rw [List.foldl_cons, heq, Nat.max_eq_right h]
        exact List.mem_cons_of_mem _ (List.mem_cons_self _ _)
      · rw [List.foldl_cons, heq, Nat.max_eq_left h]
        exact List.mem_cons_self _ _
    · rw [List.foldl_cons]
      exact List.mem_cons_of_mem _ (List.mem_cons_of_mem _ hmem)

/-! ### Claim theorems -/

example : get_bed_coverage exRecords "chr1" = [(100, 300)] := by decide

/-- C1: for every input multiset of valid half-open intervals, the
per-chromosome merged output is sorted by start, every pair of consecutive
output intervals `(s1,e1), (s2,e2)` satisfies `e1 < s2`, and any two input
intervals of the chromosome that overlap or touch (`s1 ≤ e2` and `s2 ≤ e1`)
lie inside a single output interval. -/
theorem merged_coverage_invariant (records : List BedRecord) (c : String)
    (hv : ∀ r ∈ records, r.start < r.stop) :
    List.Pairwise (fun a b : Nat × Nat => a.1 < b.1) (get_bed_coverage records c) ∧
    List.Chain' (fun a b : Nat × Nat => a.2 < b.1) (get_bed_coverage records c) ∧
    ∀ r1 ∈ records, ∀ r2 ∈ records, r1.chrom = c → r2.chrom = c →
      r1.start ≤ r2.stop → r2.start ≤ r1.stop →
      ∃ q ∈ get_bed_coverage records c,
        q.1 ≤ r1.start ∧ r1.stop ≤ q.2 ∧ q.1 ≤ r2.start ∧ r2.stop ≤ q.2 := by
  set l := (records.filter (fun r => r.chrom == c)).map (fun r => (r.start, r.stop)) with hldef
  have hcov : get_bed_coverage records c = mergeChrom l := rfl
  have hl : ∀ p ∈ l, p.1 < p.2 := by
    intro p hp
    rw [hldef] at hp
    obtain ⟨r, hrmem, rfl⟩ := List.mem_map.mp hp
    exact hv r (List.mem_filter.mp hrmem).1
  have hwf : ∀ q ∈ mergeChrom l, q.1 < q.2 := mergeChrom_wf l hl
  have hgap : List.Pairwise (fun a b : Nat × Nat => a.2 < b.1) (mergeChrom l) :=
    chain_gap_pairwise (mergeChrom_chain l) (fun q hq => Nat.le_of_lt (hwf q hq))
  refine ⟨?_, hcov ▸ mergeChrom_chain l, ?_⟩
  · rw [hcov]
    refine hgap.imp_of_mem ?_
    intro a b ha _ hab
    have := hwf a ha
    omega
  · intro r1 h1 r2 h2 hc1 hc2 ht1 ht2
    have hp1 : (r1.start, r1.stop) ∈ l := by
      rw [hldef]
      exact List.mem_map.mpr ⟨r1, List.mem_filter.mpr ⟨h1, by simp [hc1]⟩, rfl⟩
    have hp2 : (r2.start, r2.stop) ∈ l := by
      rw [hldef]
      exact List.mem_map.mpr ⟨r2, List.mem_filter.mpr ⟨h2, by simp [hc2]⟩, rfl⟩
    obtain ⟨q1, hq1, hq1a, hq1b⟩ := mergeChrom_subset l _ hp1
    obtain ⟨q2, hq2, hq2a, hq2b⟩ := mergeChrom_subset l _ hp2
    rcases pairwise_mem_cases hgap hq1 hq2 with rfl | hlt | hlt
    · exact ⟨q1, hcov ▸ hq1, hq1a, hq1b, hq2a, hq2b⟩
    · exfalso
      simp only at hq1b hq2a hlt
      omega
    · exfalso
      simp only at hq1a hq2b hlt
      omega

/-- Witness for C1 at the spec's end-to-end scenario. -/
theorem merged_coverage_invariant_witness :
    (∀ r ∈ exRecords, r.start < r.stop) ∧
    (List.Pairwise (fun a b : Nat × Nat => a.1 < b.1) (get_bed_coverage exRecords "chr1") ∧
     List.Chain' (fun a b : Nat × Nat => a.2 < b.1) (get_bed_coverage exRecords "chr1") ∧
     ∀ r1 ∈ exRecords, ∀ r2 ∈ exRecords, r1.chrom = "chr1" → r2.chrom = "chr1" →
       r1.start ≤ r2.stop → r2.start ≤ r1.stop →
       ∃ q ∈ get_bed_coverage exRecords "chr1",
         q.1 ≤ r1.start ∧ r1.stop ≤ q.2 ∧ q.1 ≤ r2.start ∧ r2.stop ≤ q.2) :=
  ⟨by decide, merged_coverage_invariant exRecords "chr1" (by decide)⟩

/-- C2: for a query `(c, s, e)` with `s < e` against a set of well-formed
merged records, `check_overlap` returns true iff some record of the query's
chromosome has a nonempty half-open intersection with the query; a chromosome
absent from the records always yields false, never an error. -/
theorem check_overlap_iff (bed : List BedRecord) (c : String) (s e : Nat)
    (hq : s < e) (hwf : ∀ r ∈ bed, r.start < r.stop) :
    (check_overlap bed (c, s, e) = true ↔
      ∃ r ∈ bed, r.chrom = c ∧ max s r.start < min e r.stop) ∧
    ((∀ r ∈ bed, r.chrom ≠ c) → check_overlap bed (c, s, e) = false) := by
  constructor
  · unfold check_overlap
    simp only [List.any_eq_true, Bool.and_eq_true, decide_eq_true_eq, beq_iff_eq,
      Nat.max_lt, Nat.lt_min]
    constructor
    · rintro ⟨r, hr, ⟨hchrom, hs⟩, he⟩
      have := hwf r hr
      exact ⟨r, hr, hchrom, by omega⟩
    · rintro ⟨r, hr, hchrom, h1, h2⟩
      exact ⟨r, hr, ⟨hchrom, by omega⟩, by omega⟩
  · intro habsent
    unfold check_overlap
    simp only [List.any_eq_false, Bool.and_eq_true, decide_eq_true_eq, beq_iff_eq]
    intro r hr
    intro hcontra
    exact habsent r hr hcontra.1.1

/-- Witness for C2: the spec's example `M = [(10,20)]`, query `(19,30)`. -/
theorem check_overlap_iff_witness :
    ((19 : Nat) < 30 ∧ ∀ r ∈ [BedRecord.mk "chr1" 10 20], r.start < r.stop) ∧
    ((check_overlap [BedRecord.mk "chr1" 10 20] ("chr1", 19, 30) = true ↔
       ∃ r ∈ [BedRecord.mk "chr1" 10 20], r.chrom = "chr1" ∧
         max 19 r.start < min 30 r.stop) ∧
     ((∀ r ∈ [BedRecord.mk "chr1" 10 20], r.chrom ≠ "chr1") →
       check_overlap [BedRecord.mk "chr1" 10 20] ("chr1", 19, 30) = false)) :=
  ⟨⟨by decide, by decide⟩, check_overlap_iff _ "chr1" 19 30 (by decide) (by decide)⟩

example : check_overlap [BedRecord.mk "chr1" 10 20] ("chr1", 20, 30) = false := by decide

example : check_overlap [BedRecord.mk "chr1" 10 20] ("chr1", 19, 30) = true := by decide

/-- The coverage check factors through the records of the query's
chromosome. -/
theorem check_overlap_eq_filter (bed : List BedRecord) (c : String) (s e : Nat) :
    check_overlap bed (c, s, e) =
      (bed.filter (fun r => r.chrom == c)).any
        (fun r => decide (s < r.stop) && decide (r.start < e)) := by
  simp [check_overlap, List.any_filter, Bool.and_assoc]

/-- C10: the result of the coverage check is unchanged by adding, removing or
modifying records on chromosomes other than the query's; it depends only on
the records of the query's own chromosome. -/
theorem check_overlap_chrom_local (bed1 bed2 : List BedRecord) (c : String) (s e : Nat)
    (h : bed1.filter (fun r => r.chrom == c) = bed2.filter (fun r => r.chrom == c)) :
    check_overlap bed1 (c, s, e) = check_overlap bed2 (c, s, e) := by
  rw [check_overlap_eq_filter, check_overlap_eq_filter, h]

/-- Witness for C10: swapping the off-chromosome record leaves the check
unchanged. -/
theorem check_overlap_chrom_local_witness :
    ([BedRecord.mk "chr1" 10 20, BedRecord.mk "chr2" 0 5].filter
        (fun r => r.chrom == "chr1") =
      [BedRecord.mk "chr1" 10 20, BedRecord.mk "chr3" 7 9].filter
        (fun r => r.chrom == "chr1")) ∧
    check_overlap [BedRecord.mk "chr1" 10 20, BedRecord.mk "chr2" 0 5] ("chr1", 15, 30) =
      check_overlap [BedRecord.mk "chr1" 10 20, BedRecord.mk "chr3" 7 9] ("chr1", 15, 30) :=
  ⟨by decide, check_overlap_chrom_local _ _ "chr1" 15 30 (by decide)⟩

/-- C3 evidence: a zero-width record (`start = end`) flows through the merge
unvalidated and appears unchanged in the merged per-chromosome output; the
code has no rejection path and no warning counter for malformed intervals. -/
theorem zero_width_record_kept :
    get_bed_coverage [⟨"chr1", 100, 100⟩] "chr1" = [(100, 100)] := by decide

example : centromere_positions exCyto "chr1" = some (300, 450) := by decide

example : centromere_positions exCyto "chr2" = none := by decide

/-- C5: a chromosome's centromere entry exists iff it has an `acen` row; when
it exists it equals `(min start, max end)` over the chromosome's `acen` rows
(both bounds attained); when it does not, the chromosome's plot layer has no
centromere-colored rectangle, and the run still completes on a non-empty
reference. -/
theorem centromere_min_max (df : List CytobandRecord) (c : String) :
    (centromere_positions df c = none ↔ acenOf df c = []) ∧
    (∀ s e, centromere_positions df c = some (s, e) →
      ((∃ r ∈ acenOf df c, r.start = s) ∧ (∃ r ∈ acenOf df c, r.stop = e) ∧
       ∀ r ∈ acenOf df c, s ≤ r.start ∧ r.stop ≤ e)) ∧
    (∀ bedtool cov tels cl i, centromere_positions df c = none →
      ∀ p ∈ chromLayer bedtool cov (centromere_positions df) tels cl i c,
        primColor p ≠ some "red" ∧ primColor p ≠ some "#ffcccc") ∧
    (∀ cl bedtool cov tels, cl ≠ [] →
      ranOk (plot_ideogram cl cov bedtool (centromere_positions df) tels) = true) := by
  refine ⟨?_, ?_, ?_, ?_⟩
  · unfold centromere_positions
    cases h : acenOf df c with
    | nil => simp
    | cons r rs => simp
  · intro s e hse
    unfold centromere_positions at hse
    cases h : acenOf df c with
    | nil => rw [h] at hse; simp at hse
    | cons r rs =>
      rw [h] at hse
      simp only [Option.some.injEq, Prod.mk.injEq] at hse
      obtain ⟨hs, he⟩ := hse
      refine ⟨?_, ?_, ?_⟩
      · have hmem := foldl_min_mem (rs.map (fun x => x.start)) r.start
        rw [hs] at hmem
        rcases List.mem_cons.mp hmem with h1 | h1
        · exact ⟨r, List.mem_cons_self _ _, h1.symm⟩
        · obtain ⟨x, hx, hxe⟩ := List.mem_map.mp h1
          exact ⟨x, List.mem_cons_of_mem _ hx, hxe⟩
      · have hmem := foldl_max_mem (rs.map (fun x => x.stop)) r.stop
        rw [he] at hmem
        rcases List.mem_cons.mp hmem with h1 | h1
        · exact ⟨r, List.mem_cons_self _ _, h1.symm⟩
        · obtain ⟨x, hx, hxe⟩ := List.mem_map.mp h1
          exact ⟨x, List.mem_cons_of_mem _ hx, hxe⟩
      · intro x hx
        constructor
        · rw [← hs]
          refine foldl_min_le (rs.map (fun y => y.start)) r.start x.start ?_
          rcases List.mem_cons.mp hx with rfl | hx'
          · exact List.mem_cons_self _ _
          · exact List.mem_cons_of_mem _ (List.mem_map.mpr ⟨x, hx', rfl⟩)
        · rw [← he]
          refine le_foldl_max (rs.map (fun y => y.stop)) r.stop x.stop ?_
          rcases List.mem_cons.mp hx with rfl | hx'
          · exact List.mem_cons_self _ _
          · exact List.mem_cons_of_mem _ (List.mem_map.mpr ⟨x, hx', rfl⟩)
  · intro bedtool cov tels cl i hnone p hp
    unfold chromLayer at hp
    cases hlen : lengthOf cl c with
    | none => rw [hlen] at hp; simp at hp
    | some len =>
      rw [hlen] at hp
      simp only [chromPrims, hnone, List.append_assoc, List.mem_append,
        List.mem_singleton, List.mem_map, List.not_mem_nil, false_or,
        List.mem_cons, or_false] at hp
      rcases hp with rfl | hp
      · simp [primColor]
      rcases hp with ⟨q, hq, rfl⟩ | hp
      · simp [primColor]
      rcases hp with hp | rfl
      · cases htel : tels c with
        | none => rw [htel] at hp; simp at hp
        | some t =>
          obtain ⟨⟨tss, tse⟩, tes, tee⟩ := t
          rw [htel] at hp
          simp only [List.mem_cons, List.not_mem_nil, or_false] at hp
          rcases hp with rfl | rfl <;>
            refine ⟨?_, ?_⟩ <;>
            · simp only [primColor, ne_eq, Option.some.injEq]
              split <;> decide
      · simp [primColor]
  · intro cl bedtool cov tels hne
    unfold plot_ideogram ranOk
    simp [List.isEmpty_iff, hne]

/-- Witness for C5 on the split-centromere table: bounds are attained and
bounding over the two `acen` rows. -/
theorem centromere_min_max_witness :
    centromere_positions exCyto "chr1" = some (300, 450) ∧
    ((∃ r ∈ acenOf exCyto "chr1", r.start = 300) ∧
     (∃ r ∈ acenOf exCyto "chr1", r.stop = 450) ∧
     ∀ r ∈ acenOf exCyto "chr1", 300 ≤ r.start ∧ r.stop ≤ 450) :=
  ⟨by decide, (centromere_min_max exCyto "chr1").2.1 300 450 (by decide)⟩

example : telomere_positions exCyto "chr1" = some ((0, 50), (950, 1000)) := by decide

example : telomere_positions exCytoSingle "chr9" = some ((10, 20), (10, 20)) := by decide

/-- C6: for a chromosome with at least one cytoband row, the start telomere
is the interval of the first row and the end telomere the interval of the
last row in table order; with exactly one row both telomeres are that same
interval and an entry is still produced (no error). -/
theorem telomeres_first_last (df : List CytobandRecord) (c : String) :
    (∀ rf rl, (rowsOf df c).head? = some rf → (rowsOf df c).getLast? = some rl →
      telomere_positions df c = some ((rf.start, rf.stop), (rl.start, rl.stop))) ∧
    (∀ r, rowsOf df c = [r] →
      telomere_positions df c = some ((r.start, r.stop), (r.start, r.stop))) := by
  constructor
  · intro rf rl hf hl
    unfold telomere_positions
    cases h : rowsOf df c with
    | nil => rw [h] at hf; simp at hf
    | cons r rs =>
      rw [h] at hf hl
      simp only [List.head?_cons, Option.some.injEq] at hf
      subst hf
      rw [List.getLast?_eq_getLast _ (List.cons_ne_nil _ _), Option.some.injEq] at hl
      subst hl
      rfl
  · intro r hr
    unfold telomere_positions
    rw [hr]
    simp [List.getLast]

/-- Witness for C6: the four-row table and the single-row table. -/
theorem telomeres_first_last_witness :
    telomere_positions exCyto "chr1" = some ((0, 50), (950, 1000)) ∧
    telomere_positions exCytoSingle "chr9" = some ((10, 20), (10, 20)) :=
  ⟨(telomeres_first_last exCyto "chr1").1
      ⟨"chr1", 0, 50, "p11", "gneg"⟩ ⟨"chr1", 950, 1000, "q11", "gneg"⟩
      (by decide) (by decide),
   (telomeres_first_last exCytoSingle "chr9").2
      ⟨"chr9", 10, 20, "p", "gneg"⟩ (by decide)⟩

/-- A `max`-fold over a list from the right bounds every element. -/
theorem le_foldr_max (l : List Nat) (a : Nat) : ∀ x ∈ l, x ≤ l.foldr max a := by
  induction l with
  | nil => simp
  | cons b l ih =>
    intro x hx
    rcases List.mem_cons.mp hx with rfl | hx
    · exact Nat.le_max_left _ _
    · exact Nat.le_trans (ih x hx) (Nat.le_max_right _ _)

/-- Every length in the mapping is bounded by `maxVal`. -/
theorem le_maxVal (cl : List (String × Nat)) : ∀ p ∈ cl, p.2 ≤ maxVal cl := by
  intro p hp
  exact le_foldr_max _ 0 p.2 (List.mem_map.mpr ⟨p, hp, rfl⟩)

/-- On a non-empty mapping `plot_ideogram` reaches `savefig` and returns the
figure state. -/
theorem plot_ideogram_ok (cl : List (String × Nat))
    (cov : String → List (Nat × Nat)) (bedtool : List BedRecord)
    (cents : String → Option (Nat × Nat))
    (tels : String → Option ((Nat × Nat) × (Nat × Nat))) (h : cl ≠ []) :
    plot_ideogram cl cov bedtool cents tels = Except.ok
      { prims := (chromosomes.enum.map
          (fun p => chromLayer bedtool cov cents tels cl p.1 p.2)).flatten
        ylim := (0, (maxVal cl : ℚ) * 11 / 10)
        xlim := (-(1 / 2 : ℚ), 24)
        yInverted := true
        saved := true } := by
  have hie : cl.isEmpty = false := by
    cases cl with
    | nil => exact absurd rfl h
    | cons a l => rfl
  unfold plot_ideogram
  rw [hie]
  rfl

/-- Counterexample to C4 as stated: a reference whose chromosome set contains
none of the 24 canonical names (a single non-canonical contig) does not make
the run fail — it completes and the output image is written. -/
theorem no_canonical_still_saves :
    (chromosomes.all (fun c => (lengthOf [("contig1", 500)] c).isNone)) = true ∧
    ranOk (plot_ideogram [("contig1", 500)] (get_bed_coverage [])
      [] (centromere_positions []) (telomere_positions [])) = true := by
  constructor
  · decide
  · rw [plot_ideogram_ok _ _ _ _ _ (by decide)]
    rfl

/-- C4 amended: the run fails with an error and no output file exactly when
the chromosome-length mapping is empty (the `max` over its values raises); a
non-empty mapping — even one containing none of the 24 canonical names —
completes and writes the output image, drawing no chromosome primitives when
no canonical name is present. -/
theorem empty_input_behavior (cl : List (String × Nat))
    (cov : String → List (Nat × Nat)) (bedtool : List BedRecord)
    (cents : String → Option (Nat × Nat))
    (tels : String → Option ((Nat × Nat) × (Nat × Nat))) :
    (cl = [] → plot_ideogram cl cov bedtool cents tels =
      Except.error "max() arg is an empty sequence") ∧
    (cl ≠ [] → ∃ r, plot_ideogram cl cov bedtool cents tels = Except.ok r ∧
      r.saved = true ∧
      ((∀ c ∈ chromosomes, lengthOf cl c = none) → r.prims = [])) := by
  constructor
  · intro h
    subst h
    rfl
  · intro h
    refine ⟨_, plot_ideogram_ok cl cov bedtool cents tels h, rfl, ?_⟩
    intro habsent
    simp only [List.flatten_eq_nil_iff, List.mem_map]
    rintro _ ⟨p, hp, rfl⟩
    have hmem : p.2 ∈ chromosomes := by
      have h2 := List.mem_map_of_mem Prod.snd hp
      rw [show List.map Prod.snd chromosomes.enum = chromosomes from
        List.enumFrom_map_snd 0 chromosomes] at h2
      exact h2
    unfold chromLayer
    rw [habsent p.2 hmem]

/-- Witness for C4 amended: the empty mapping fails before saving; the
one-contig mapping saves an image with an empty canvas. -/
theorem empty_input_behavior_witness :
    (plot_ideogram [] (get_bed_coverage []) [] (centromere_positions [])
       (telomere_positions []) = Except.error "max() arg is an empty sequence") ∧
    ∃ r, plot_ideogram [("contig9", 700)] (get_bed_coverage []) []
        (centromere_positions []) (telomere_positions []) = Except.ok r ∧
      r.saved = true ∧
      ((∀ c ∈ chromosomes, lengthOf [("contig9", 700)] c = none) → r.prims = []) :=
  ⟨(empty_input_behavior [] _ _ _ _).1 rfl,
   (empty_input_behavior [("contig9", 700)] _ _ _ _).2 (by decide)⟩

/-- Counterexample to C7 as stated: with chr1 (length 1000) the only
displayed chromosome and a non-canonical 5000 bp contig in the reference, the
vertical scale is `5000 * 1.1 = 5500`, not the longest displayed chromosome's
`1000 * 1.1 = 1100`. -/
theorem ylim_not_longest_displayed :
    ylimOf (plot_ideogram [("chr1", 1000), ("weird", 5000)] (get_bed_coverage []) []
      (centromere_positions []) (telomere_positions [])) = some (0, 5500) ∧
    (5500 : ℚ) ≠ (1000 : ℚ) * 11 / 10 ∧
    (chromosomes.filter
      (fun c => (lengthOf [("chr1", 1000), ("weird", 5000)] c).isSome)) = ["chr1"] := by
  refine ⟨?_, by norm_num, by decide⟩
  rw [plot_ideogram_ok _ _ _ _ _ (by decide)]
  show some ((0 : ℚ), ((5000 : Nat) : ℚ) * 11 / 10) = some (0, 5500)
  norm_num

/-- C7 amended: for every non-empty length mapping the vertical axis is a
single linear scale `(0, 1.1 * max over all entries of the mapping)` — the
maximum ranges over every entry of the reference, displayed or not — shared
by all chromosomes and inverted so coordinate 0 is at the top; the scale
bounds `1.1 * length` for every entry. -/
theorem ylim_shared_scale (cl : List (String × Nat))
    (cov : String → List (Nat × Nat)) (bedtool : List BedRecord)
    (cents : String → Option (Nat × Nat))
    (tels : String → Option ((Nat × Nat) × (Nat × Nat))) (h : cl ≠ []) :
    ∃ r, plot_ideogram cl cov bedtool cents tels = Except.ok r ∧
      r.ylim = (0, (maxVal cl : ℚ) * 11 / 10) ∧ r.yInverted = true ∧
      ∀ p ∈ cl, (p.2 : ℚ) * 11 / 10 ≤ (maxVal cl : ℚ) * 11 / 10 := by
  refine ⟨_, plot_ideogram_ok cl cov bedtool cents tels h, rfl, rfl, ?_⟩
  intro p hp
  have hcast : (p.2 : ℚ) ≤ (maxVal cl : ℚ) := by exact_mod_cast le_maxVal cl p hp
  gcongr

/-- Witness for C7 amended at a two-entry mapping. -/
theorem ylim_shared_scale_witness :
    ([("chr1", 1000), ("chr2", 800)] : List (String × Nat)) ≠ [] ∧
    ∃ r, plot_ideogram [("chr1", 1000), ("chr2", 800)] (get_bed_coverage []) []
        (centromere_positions []) (telomere_positions []) = Except.ok r ∧
      r.ylim = (0, (maxVal [("chr1", 1000), ("chr2", 800)] : ℚ) * 11 / 10) ∧
      r.yInverted = true ∧
      ∀ p ∈ ([("chr1", 1000), ("chr2", 800)] : List (String × Nat)),
        (p.2 : ℚ) * 11 / 10 ≤ (maxVal [("chr1", 1000), ("chr2", 800)] : ℚ) * 11 / 10 :=
  ⟨by decide,
   ylim_shared_scale [("chr1", 1000), ("chr2", 800)] (get_bed_coverage []) []
     (centromere_positions []) (telomere_positions []) (by decide)⟩

/-- Every primitive of one chromosome's chunk sits at the slot position
`idx * spacing` (rectangles) or `idx * spacing + chrom_width / 2` (the
label). -/
theorem chromPrims_x (bedtool : List BedRecord)
    (cov : String → List (Nat × Nat)) (cents : String → Option (Nat × Nat))
    (tels : String → Option ((Nat × Nat) × (Nat × Nat)))
    (idx : Nat) (c : String) (len : Nat) :
    ∀ p ∈ chromPrims bedtool cov cents tels idx c len,
      primX p = idx * spacing ∨ primX p = idx * spacing + chrom_width / 2 := by
  intro p hp
  simp only [chromPrims, List.append_assoc, List.mem_append, List.mem_cons,
    List.not_mem_nil, or_false, List.mem_singleton, List.mem_map] at hp
  rcases hp with rfl | hp
  · exact Or.inl rfl
  rcases hp with ⟨q, hq, rfl⟩ | hp
  · exact Or.inl rfl
  rcases hp with hp | hp
  · cases hcent : cents c with
    | none => rw [hcent] at hp; simp at hp
    | some cval =>
      obtain ⟨cs, ce⟩ := cval
      rw [hcent] at hp
      simp only [List.mem_singleton, List.mem_cons, List.not_mem_nil, or_false] at hp
      subst hp
      exact Or.inl rfl
  rcases hp with hp | rfl
  · cases htel : tels c with
    | none => rw [htel] at hp; simp at hp
    | some t =>
      obtain ⟨⟨tss, tse⟩, tes, tee⟩ := t
      rw [htel] at hp
      simp only [List.mem_cons, List.not_mem_nil, or_false] at hp
      rcases hp with rfl | rfl <;> exact Or.inl rfl
  · exact Or.inr rfl

/-- C8: the horizontal slot of a chromosome is its fixed index in the
canonical list: an absent chromosome contributes no primitives, a present
chromosome's primitives all sit at `x = idx * spacing` (its label at the slot
center `idx * spacing + chrom_width / 2`), the chunk depends on the length
mapping only through the chromosome's own entry (so a gap is left rather than
compacting the indices), and a present chromosome's body rectangle sits at
the fixed slot. -/
theorem slot_fixed_index (bedtool : List BedRecord)
    (cov : String → List (Nat × Nat)) (cents : String → Option (Nat × Nat))
    (tels : String → Option ((Nat × Nat) × (Nat × Nat)))
    (cl : List (String × Nat)) (idx : Nat) (c : String) :
    (lengthOf cl c = none → chromLayer bedtool cov cents tels cl idx c = []) ∧
    (∀ p ∈ chromLayer bedtool cov cents tels cl idx c,
      primX p = idx * spacing ∨ primX p = idx * spacing + chrom_width / 2) ∧
    (∀ cl', lengthOf cl' c = lengthOf cl c →
      chromLayer bedtool cov cents tels cl' idx c =
        chromLayer bedtool cov cents tels cl idx c) ∧
    (∀ len, lengthOf cl c = some len →
      Prim.rect (idx * spacing) 0 chrom_width len "lightgray" ∈
        chromLayer bedtool cov cents tels cl idx c) := by
  refine ⟨?_, ?_, ?_, ?_⟩
  · intro h
    unfold chromLayer
    rw [h]
  · intro p hp
    unfold chromLayer at hp
    cases hlen : lengthOf cl c with
    | none => rw [hlen] at hp; simp at hp
    | some len =>
      rw [hlen] at hp
      exact chromPrims_x bedtool cov cents tels idx c len p hp
  · intro cl' h
    unfold chromLayer
    rw [h]
  · intro len h
    unfold chromLayer
    rw [h]
    simp [chromPrims]

/-- Witness for C8: with only chr3 in the reference, chr1's slot is empty and
chr3's body rectangle sits at the third slot (`x = 2`), not compacted to the
first. -/
theorem slot_fixed_index_witness :
    chromLayer [] (get_bed_coverage []) (centromere_positions [])
      (telomere_positions []) [("chr3", 100)] 0 "chr1" = [] ∧
    Prim.rect (2 * spacing) 0 chrom_width 100 "lightgray" ∈
      chromLayer [] (get_bed_coverage []) (centromere_positions [])
        (telomere_positions []) [("chr3", 100)] 2 "chr3" :=
  ⟨(slot_fixed_index [] (get_bed_coverage []) (centromere_positions [])
      (telomere_positions []) [("chr3", 100)] 0 "chr1").1 (by decide),
   (slot_fixed_index [] (get_bed_coverage []) (centromere_positions [])
      (telomere_positions []) [("chr3", 100)] 2 "chr3").2.2.2 100 (by decide)⟩

/-- A `filterMap` that never produces a value yields the empty list. -/
theorem filterMap_none_eq_nil {α β : Type _} (l : List α) :
    l.filterMap (fun _ => (none : Option β)) = [] := by
  induction l with
  | nil => rfl
  | cons a l ih => simp [List.filterMap_cons, ih]

/-- One chromosome's chunk contains exactly one label, at
`y = length + 10^7`. -/
theorem labelYs_chromPrims (bedtool : List BedRecord)
    (cov : String → List (Nat × Nat)) (cents : String → Option (Nat × Nat))
    (tels : String → Option ((Nat × Nat) × (Nat × Nat)))
    (idx : Nat) (c : String) (len : Nat) :
    labelYs (chromPrims bedtool cov cents tels idx c len) =
      [(len : ℚ) + 10000000] := by
  cases hcent : cents c with
  | none =>
    cases htel : tels c with
    | none =>
      simp [labelYs, chromPrims, hcent, htel, List.filterMap_append,
        List.filterMap_map, List.filterMap_cons, filterMap_none_eq_nil,
        Function.comp]
    | some t =>
      obtain ⟨⟨tss, tse⟩, tes, tee⟩ := t
      simp [labelYs, chromPrims, hcent, htel, List.filterMap_append,
        List.filterMap_map, List.filterMap_cons, filterMap_none_eq_nil,
        Function.comp]
  | some cval =>
    obtain ⟨cs, ce⟩ := cval
    cases htel : tels c with
    | none =>
      simp [labelYs, chromPrims, hcent, htel, List.filterMap_append,
        List.filterMap_map, List.filterMap_cons, filterMap_none_eq_nil,
        Function.comp]
    | some t =>
      obtain ⟨⟨tss, tse⟩, tes, tee⟩ := t
      simp [labelYs, chromPrims, hcent, htel, List.filterMap_append,
        List.filterMap_map, List.filterMap_cons, filterMap_none_eq_nil,
        Function.comp]

/-- Counterexample to C9 as stated: chr1's label sits at
`y = length + 10^7`, beyond the chromosome's greater-coordinate end — not
beyond the end nearest the lesser-coordinate side (that would need `y ≤ 0`) —
and the offset is the fixed absolute constant `10^7`, unchanged when the
chromosome (and with it the genome scale) doubles. -/
theorem label_not_at_lesser_end :
    labelYs (chromLayer [] (get_bed_coverage []) (centromere_positions [])
      (telomere_positions []) [("chr1", 1000)] 0 "chr1") =
        [(1000 : ℚ) + 10000000] ∧
    ¬ ((1000 : ℚ) + 10000000 ≤ 0) ∧
    labelYs (chromLayer [] (get_bed_coverage []) (centromere_positions [])
      (telomere_positions []) [("chr1", 2000)] 0 "chr1") =
        [(2000 : ℚ) + 10000000] := by
  refine ⟨?_, by norm_num, ?_⟩
  · exact labelYs_chromPrims [] (get_bed_coverage []) (centromere_positions [])
      (telomere_positions []) 0 "chr1" 1000
  · exact labelYs_chromPrims [] (get_bed_coverage []) (centromere_positions [])
      (telomere_positions []) 0 "chr1" 2000

/-- C9 amended: every displayed chromosome's label is positioned just beyond
its greater-coordinate end, at `y = length + 10^7` — a fixed absolute offset
independent of the genome scale. -/
theorem label_beyond_greater_end (bedtool : List BedRecord)
    (cov : String → List (Nat × Nat)) (cents : String → Option (Nat × Nat))
    (tels : String → Option ((Nat × Nat) × (Nat × Nat)))
    (cl : List (String × Nat)) (idx : Nat) (c : String) (len : Nat)
    (h : lengthOf cl c = some len) :
    labelYs (chromLayer bedtool cov cents tels cl idx c) =
      [(len : ℚ) + 10000000] := by
  unfold chromLayer
  rw [h]
  exact labelYs_chromPrims bedtool cov cents tels idx c len

/-- Witness for C9 amended at a concrete chromosome of length 3000. -/
theorem label_beyond_greater_end_witness :
    lengthOf [("chr2", 3000)] "chr2" = some 3000 ∧
    labelYs (chromLayer [] (get_bed_coverage []) (centromere_positions [])
      (telomere_positions []) [("chr2", 3000)] 1 "chr2") =
        [(3000 : ℚ) + 10000000] :=
  ⟨by decide,
   label_beyond_greater_end [] (get_bed_coverage []) (centromere_positions [])
     (telomere_positions []) [("chr2", 3000)] 1 "chr2" 3000 (by decide)⟩

end IdeoCoverage
